import Mathlib

/-!
Shallow embedding of src/file_system.py (an in-memory filesystem simulator).

Python objects are modelled by a heap: every TrieNode lives in `nodes`, an
association list from a numeric id to its data, and object references
(`parent`, `children` values, `root`, `current`) are ids.  Fresh ids come from
`nextId`, mirroring Python allocation.  `rm` deletes only the child entry, as
the Python `del` does: the node data stays in the heap, so a detached cursor
keeps working on the detached subtree exactly as the Python reference does.
-/

namespace FsSim

/-- Association-list lookup: first entry whose key matches, as a Python dict
lookup (keys are unique in every dict we build). -/
def alookup {α β : Type} [DecidableEq α] : List (α × β) → α → Option β
  | [], _ => none
  | (k, v) :: t, a => if k = a then some v else alookup t a

/-- Association-list update: replace the first entry with this key, or append
a new entry, as a Python dict assignment. -/
def aset {α β : Type} [DecidableEq α] : List (α × β) → α → β → List (α × β)
  | [], a, b => [(a, b)]
  | (k, v) :: t, a, b => if k = a then (a, b) :: t else (k, v) :: aset t a b

/-- Association-list deletion of the first entry with this key, as Python
`del d[k]`. -/
def aremove {α β : Type} [DecidableEq α] : List (α × β) → α → List (α × β)
  | [], _ => []
  | (k, v) :: t, a => if k = a then t else (k, v) :: aremove t a

/-- Map a function over the value of the first entry with this key. -/
def amod {α β : Type} [DecidableEq α] (f : β → β) : List (α × β) → α → List (α × β)
  | [], _ => []
  | (k, v) :: t, a => if k = a then (k, f v) :: t else (k, v) :: amod f t a

/-- The keys of an association list. -/
def akeys {α β : Type} (l : List (α × β)) : List α := l.map Prod.fst

/-- Split a character list at every slash, as Python str.split(sep) with a
one-character separator: chunks between separators, empty chunks included. -/
def splitChunks (acc : List Char) : List Char → List String
  | [] => [String.mk acc.reverse]
  | c :: cs =>
    if c = '/' then String.mk acc.reverse :: splitChunks [] cs
    else splitChunks (c :: acc) cs

/-- Lexicographic comparison of character lists by code point, the order
Python string comparison (and hence sorted) uses. -/
def charsLe : List Char → List Char → Bool
  | [], _ => true
  | _ :: _, [] => false
  | a :: as, b :: bs =>
    if a.toNat < b.toNat then true
    else if b.toNat < a.toNat then false
    else charsLe as bs

/-- The Python string order as a relation on strings. -/
def strLe (a b : String) : Prop := charsLe a.toList b.toList = true

instance : DecidableRel strLe :=
  fun a b => inferInstanceAs (Decidable (charsLe a.toList b.toList = true))

/-- Data of one `TrieNode` of file_system.py: name, is_file flag, content
(meaningful for files), parent reference, children dict (name to node). -/
structure TrieNode where
  name : String
  is_file : Bool
  content : String
  parent : Option Nat
  children : List (String × Nat)
deriving DecidableEq, Repr

/-- The `FileSystem` object plus the heap of all allocated nodes. -/
structure FileSystem where
  nodes : List (Nat × TrieNode)
  nextId : Nat
  root : Nat
  current : Nat
deriving DecidableEq, Repr

namespace FileSystem

/-- FileSystem.__init__: a root node with empty name and no parent. -/
def init : FileSystem :=
  { nodes := [(0, ⟨"", false, "", none, []⟩)], nextId := 1, root := 0, current := 0 }

/-- Dereference a node id in the heap. -/
def getNode (s : FileSystem) (i : Nat) : Option TrieNode :=
  alookup s.nodes i

/-- The parent reference of a node (`node.parent`). -/
def parentOf (s : FileSystem) (i : Nat) : Option Nat :=
  (s.getNode i).bind (fun d => d.parent)

/-- Children-dict lookup (`node.children[c]`, when present). -/
def childOf (s : FileSystem) (i : Nat) (c : String) : Option Nat :=
  (s.getNode i).bind (fun d => alookup d.children c)

/-- The is_file flag of a node (`node.is_file`). -/
def isFileOf (s : FileSystem) (i : Nat) : Bool :=
  ((s.getNode i).map (fun d => d.is_file)).getD false

/-- The children dict of a node (`node.children`). -/
def childrenOf (s : FileSystem) (i : Nat) : List (String × Nat) :=
  ((s.getNode i).map (fun d => d.children)).getD []

/-- The name of a node (`node.name`). -/
def nameOf (s : FileSystem) (i : Nat) : String :=
  ((s.getNode i).map (fun d => d.name)).getD ""

/-- The content of a node (`node.content`). -/
def contentOf (s : FileSystem) (i : Nat) : String :=
  ((s.getNode i).map (fun d => d.content)).getD ""

/-- Mutate the node behind id `i` in place. -/
def updNode (s : FileSystem) (i : Nat) (f : TrieNode → TrieNode) : FileSystem :=
  { s with nodes := amod f s.nodes i }

/-- Allocate a TrieNode(comp, is_file, parent=cur) and store it in
`cur.children[comp]`, as both `_create_directory` and `touch` do. -/
def addChild (s : FileSystem) (cur : Nat) (comp : String) (isf : Bool) : FileSystem :=
  let nid := s.nextId
  let s1 := s.updNode cur (fun d => { d with children := aset d.children comp nid })
  { s1 with nodes := s1.nodes ++ [(nid, ⟨comp, isf, "", some cur, []⟩)], nextId := nid + 1 }

/-- FileSystem._parse_path: split on slashes and drop empty components.  The
Python function also picks a start node for absolute paths but discards it (a
local variable that is never returned); only the component list survives. -/
def parse_path (path : String) : List String :=
  if path = "" then []
  else
    let chars :=
      if path.toList.head? = some '/' then path.toList.drop 1 else path.toList
    (splitChunks [] chars).filter (fun c => c ≠ "")

/-- Loop body of FileSystem._traverse.  `last` is `components[-1]` of the full
list, fixed before the loop starts. -/
def traverseLoop (s : FileSystem) (last : String) : Nat → List String → Option Nat
  | cur, [] => some cur
  | cur, comp :: rest =>
    if comp = ".." then
      traverseLoop s last ((s.parentOf cur).getD cur) rest
    else if comp = "." then
      traverseLoop s last cur rest
    else
      match s.childOf cur comp with
      | some child =>
        if s.isFileOf child && comp ≠ last then none
        else traverseLoop s last child rest
      | none => none

/-- FileSystem._traverse: start from the root when the first component is the
empty string (dead after `_parse_path` filtering), else from the cursor, then
walk the components. -/
def traverse (s : FileSystem) (components : List String) : Option Nat :=
  let start := if components.head? = some "" then s.root else s.current
  traverseLoop s (components.getLastD "") start components

/-- Loop body of FileSystem._create_directory: like the traverse loop but a
missing component allocates a fresh directory node, and there is no
through-a-file check. -/
def createLoop : FileSystem → Nat → List String → FileSystem
  | s, _, [] => s
  | s, cur, comp :: rest =>
    if comp = ".." then
      createLoop s ((s.parentOf cur).getD cur) rest
    else if comp = "." then
      createLoop s cur rest
    else
      match s.childOf cur comp with
      | some child => createLoop s child rest
      | none => createLoop (s.addChild cur comp false) s.nextId rest

/-- FileSystem._create_directory.  The Python code reads `components[0]`
unconditionally, which would fault on an empty list; `mkdir` never calls it
with one (see the safety theorem), and on the empty list this embedding just
walks zero components. -/
def create_directory (s : FileSystem) (components : List String) : FileSystem :=
  let start := if components.head? = some "" then s.root else s.current
  createLoop s start components

/-- FileSystem.mkdir: no-op when traverse already finds a node, otherwise run
the create walk.  It prints nothing in either case. -/
def mkdir (s : FileSystem) (path : String) : FileSystem × List String :=
  let components := parse_path path
  match s.traverse components with
  | some _ => (s, [])
  | none => (s.create_directory components, [])

/-- FileSystem.touch. -/
def touch (s : FileSystem) (path : String) : FileSystem × List String :=
  let components := parse_path path
  if components = [] then (s, ["Invalid file name"])
  else
    let dir_components := components.dropLast
    let file_name := components.getLastD ""
    match s.traverse dir_components with
    | some dir_node =>
      if s.isFileOf dir_node then
        (s, ["Invalid path: " ++ String.intercalate "/" components])
      else
        match s.childOf dir_node file_name with
        | none =>
          (s.addChild dir_node file_name true,
           ["File '" ++ file_name ++ "' created"])
        | some _ => (s, ["File '" ++ file_name ++ "' already exists"])
    | none => (s, ["Invalid path: " ++ String.intercalate "/" components])

/-- FileSystem.ls: the one line it prints.  Directories get a trailing slash
and the decorated entries are sorted; the empty join prints the empty-directory
message, matching Python string truthiness. -/
def ls (s : FileSystem) (path : String) : FileSystem × List String :=
  let components := parse_path path
  let target := if components = [] then some s.current else s.traverse components
  match target with
  | none => (s, ["Path not found: " ++ String.intercalate "/" components])
  | some n =>
    if s.isFileOf n then (s, [s.nameOf n])
    else
      let contents := (s.childrenOf n).map
        (fun e => if s.isFileOf e.2 then e.1 else e.1 ++ "/")
      let joined := String.intercalate "\n" (contents.insertionSort strLe)
      (s, [if joined = "" then "Empty directory" else joined])

/-- FileSystem.cd. -/
def cd (s : FileSystem) (path : String) : FileSystem × List String :=
  if path = "/" then ({ s with current := s.root }, [])
  else
    let components := parse_path path
    match s.traverse components with
    | some n =>
      if s.isFileOf n then
        (s, ["Directory not found: " ++ String.intercalate "/" components])
      else ({ s with current := n }, [])
    | none => (s, ["Directory not found: " ++ String.intercalate "/" components])

/-- Parent-chain walk of FileSystem.pwd, with fuel; parents of allocated nodes
are strictly older ids, so `nextId` steps always suffice. -/
def pwdChain (s : FileSystem) : Nat → Nat → List String
  | 0, _ => []
  | fuel + 1, i =>
    match s.parentOf i with
    | none => []
    | some p => s.nameOf i :: pwdChain s fuel p

/-- FileSystem.pwd. -/
def pwd (s : FileSystem) : FileSystem × List String :=
  (s, ["/" ++ String.intercalate "/" (pwdChain s s.nextId s.current).reverse])

/-- FileSystem.cat. -/
def cat (s : FileSystem) (path : String) : FileSystem × List String :=
  let components := parse_path path
  match s.traverse components with
  | some n =>
    if s.isFileOf n then (s, [s.contentOf n])
    else (s, ["File not found: " ++ String.intercalate "/" components])
  | none => (s, ["File not found: " ++ String.intercalate "/" components])

/-- The write path of the echo handler in main: resolve the path and replace
the content of the file found there. -/
def write (s : FileSystem) (text filepath : String) : FileSystem × List String :=
  let components := parse_path filepath
  match s.traverse components with
  | some n =>
    if s.isFileOf n then
      (s.updNode n (fun d => { d with content := text }), ["Written to " ++ filepath])
    else (s, ["File not found: " ++ filepath])
  | none => (s, ["File not found: " ++ filepath])

/-- FileSystem.rm. -/
def rm (s : FileSystem) (path : String) : FileSystem × List String :=
  let components := parse_path path
  if components = [] then (s, ["Invalid path"])
  else
    match s.traverse components.dropLast with
    | some n =>
      match s.childOf n (components.getLastD "") with
      | some _ =>
        (s.updNode n (fun d => { d with children := aremove d.children (components.getLastD "") }),
         ["Removed: " ++ String.intercalate "/" components])
      | none => (s, ["Path not found: " ++ String.intercalate "/" components])
    | none => (s, ["Path not found: " ++ String.intercalate "/" components])

end FileSystem

/-- The eight engine operations of the spec. -/
inductive Op where
  | mkdir (p : String)
  | touch (p : String)
  | ls (p : String)
  | cd (p : String)
  | pwd
  | cat (p : String)
  | write (p t : String)
  | rm (p : String)
deriving DecidableEq, Repr

/-- Dispatch one operation, returning the new state and the printed lines. -/
def applyOp (s : FileSystem) : Op → FileSystem × List String
  | .mkdir p => s.mkdir p
  | .touch p => s.touch p
  | .ls p => s.ls p
  | .cd p => s.cd p
  | .pwd => s.pwd
  | .cat p => s.cat p
  | .write p t => s.write t p
  | .rm p => s.rm p

/-- One operation, state only. -/
def step (s : FileSystem) (o : Op) : FileSystem := (applyOp s o).1

/-- Run a sequence of operations from the initial tree. -/
def runOps (ops : List Op) : FileSystem := ops.foldl step FileSystem.init

open FileSystem

/-! ## Auxiliary predicates used by the verification -/

/-- Well-formedness of a state: allocated ids are below `nextId`, the root and
the cursor are allocated, and every parent or child reference of an allocated
node is allocated.  Every state the program can reach satisfies it. -/
def wf (s : FileSystem) : Prop :=
  (∀ i d, s.getNode i = some d → i < s.nextId) ∧
  (s.getNode s.root).isSome = true ∧
  (s.getNode s.current).isSome = true ∧
  (∀ i d, s.getNode i = some d →
    (∀ p, d.parent = some p → (s.getNode p).isSome = true) ∧
    (∀ e, e ∈ d.children → (s.getNode e.2).isSome = true))

/-- The cursor and the root are directory nodes. -/
def okCursor (s : FileSystem) : Prop :=
  s.isFileOf s.current = false ∧ s.isFileOf s.root = false

/-- The full invariant carried through every operation. -/
def inv (s : FileSystem) : Prop := wf s ∧ okCursor s

/-- Mirror of the traverse loop recording whether some step descends into a
file via a component whose string differs from the last component string. -/
def midFileHit (s : FileSystem) (last : String) : Nat → List String → Bool
  | _, [] => false
  | cur, comp :: rest =>
    if comp = ".." then
      midFileHit s last ((s.parentOf cur).getD cur) rest
    else if comp = "." then
      midFileHit s last cur rest
    else
      match s.childOf cur comp with
      | some child =>
        (s.isFileOf child && comp ≠ last) || midFileHit s last child rest
      | none => false

/-- The decorated entries that ls builds for a directory: each child name,
with a trailing slash when the child is itself a directory. -/
def lsEntries (s : FileSystem) (n : Nat) : List String :=
  (s.childrenOf n).map (fun e => if s.isFileOf e.2 then e.1 else e.1 ++ "/")

/-- One node extends another: same flag and parent, children only added. -/
def nodeExt (d d2 : TrieNode) : Prop :=
  d2.is_file = d.is_file ∧ d2.parent = d.parent ∧
  (∀ c j, alookup d.children c = some j → alookup d2.children c = some j)

/-- One state extends another: same root and cursor, ids only allocated, every
allocated node only extended.  The create walk only extends states. -/
def heapExt (s t : FileSystem) : Prop :=
  t.root = s.root ∧ t.current = s.current ∧ s.nextId ≤ t.nextId ∧
  (∀ i d, s.getNode i = some d → ∃ d2, t.getNode i = some d2 ∧ nodeExt d d2)

/-! ## Association-list lemmas -/

theorem alookup_amod {α β : Type} [DecidableEq α] (f : β → β) (l : List (α × β))
    (i j : α) :
    alookup (amod f l i) j = if j = i then (alookup l i).map f else alookup l j := by
  induction l with
  | nil => simp [amod, alookup]
  | cons e t ih =>
    obtain ⟨k, v⟩ := e
    by_cases hk : k = i
    · subst hk
      by_cases hj : k = j
      · subst hj
        simp [amod, alookup]
      · have hj2 : ¬j = k := fun h => hj h.symm
        simp [amod, alookup, hj, hj2]
    · by_cases hj : k = j
      · subst hj
        have hj2 : ¬k = i := hk
        simp [amod, alookup, hk, hj2, fun h => hk h]
      · simp [amod, alookup, hk, hj, ih]

theorem alookup_append_some {α β : Type} [DecidableEq α] {l1 l2 : List (α × β)}
    {j : α} {v : β} (h : alookup l1 j = some v) :
    alookup (l1 ++ l2) j = some v := by
  induction l1 with
  | nil => simp [alookup] at h
  | cons e t ih =>
    obtain ⟨k, w⟩ := e
    by_cases hk : k = j
    · simp_all [alookup]
    · simp [alookup, hk] at h ⊢
      exact ih h

theorem alookup_append_none {α β : Type} [DecidableEq α] {l1 l2 : List (α × β)}
    {j : α} (h : alookup l1 j = none) :
    alookup (l1 ++ l2) j = alookup l2 j := by
  induction l1 with
  | nil => simp
  | cons e t ih =>
    obtain ⟨k, w⟩ := e
    by_cases hk : k = j
    · simp [alookup, hk] at h
    · simp [alookup, hk] at h ⊢
      exact ih h

theorem alookup_aset {α β : Type} [DecidableEq α] (l : List (α × β)) (k : α)
    (v : β) (j : α) :
    alookup (aset l k v) j = if j = k then some v else alookup l j := by
  induction l with
  | nil =>
    by_cases hj : k = j
    · simp [aset, alookup, hj]
    · have hj2 : ¬j = k := fun h => hj h.symm
      simp [aset, alookup, hj, hj2]
  | cons e t ih =>
    obtain ⟨k0, w⟩ := e
    by_cases hk : k0 = k
    · subst hk
      by_cases hj : k0 = j
      · simp [aset, alookup, hj]
      · have hj2 : ¬j = k0 := fun h => hj h.symm
        simp [aset, alookup, hj, hj2]
    · by_cases hj : k0 = j
      · subst hj
        simp [aset, alookup, hk]
      · simp [aset, alookup, hk, hj, ih]

theorem alookup_mem {α β : Type} [DecidableEq α] {l : List (α × β)} {k : α}
    {v : β} (h : alookup l k = some v) : (k, v) ∈ l := by
  induction l with
  | nil => simp [alookup] at h
  | cons e t ih =>
    obtain ⟨k0, w⟩ := e
    by_cases hk : k0 = k
    · subst hk
      simp [alookup] at h
      simp [h]
    · simp [alookup, hk] at h
      simp [ih h]

theorem mem_aset {α β : Type} [DecidableEq α] {l : List (α × β)} {k : α}
    {v : β} {e : α × β} (h : e ∈ aset l k v) : e ∈ l ∨ e = (k, v) := by
  induction l with
  | nil => simp [aset] at h; simp [h]
  | cons e0 t ih =>
    obtain ⟨k0, w⟩ := e0
    by_cases hk : k0 = k
    · subst hk
      simp [aset] at h
      rcases h with h | h
      · exact Or.inr h
      · exact Or.inl (List.mem_cons_of_mem _ h)
    · simp [aset, hk] at h
      rcases h with h | h
      · exact Or.inl (by simp [h])
      · rcases ih h with h2 | h2
        · exact Or.inl (List.mem_cons_of_mem _ h2)
        · exact Or.inr h2

theorem mem_aremove {α β : Type} [DecidableEq α] {l : List (α × β)} {k : α}
    {e : α × β} (h : e ∈ aremove l k) : e ∈ l := by
  induction l with
  | nil => simp [aremove] at h
  | cons e0 t ih =>
    obtain ⟨k0, w⟩ := e0
    by_cases hk : k0 = k
    · subst hk
      simp [aremove] at h
      exact List.mem_cons_of_mem _ h
    · simp [aremove, hk] at h
      rcases h with h | h
      · simp [h]
      · exact List.mem_cons_of_mem _ (ih h)

/-! ## Heap lemmas -/

theorem getNode_updNode (s : FileSystem) (i : Nat) (f : TrieNode → TrieNode)
    (j : Nat) :
    (s.updNode i f).getNode j = if j = i then (s.getNode i).map f
      else s.getNode j :=
  alookup_amod f s.nodes i j

@[simp] theorem updNode_root (s : FileSystem) (i : Nat) (f : TrieNode → TrieNode) :
    (s.updNode i f).root = s.root := rfl

@[simp] theorem updNode_current (s : FileSystem) (i : Nat) (f : TrieNode → TrieNode) :
    (s.updNode i f).current = s.current := rfl

@[simp] theorem updNode_nextId (s : FileSystem) (i : Nat) (f : TrieNode → TrieNode) :
    (s.updNode i f).nextId = s.nextId := rfl

theorem isSome_getNode_updNode (s : FileSystem) (i : Nat) (f : TrieNode → TrieNode)
    (j : Nat) :
    ((s.updNode i f).getNode j).isSome = (s.getNode j).isSome := by
  rw [getNode_updNode]
  by_cases hj : j = i
  · subst hj
    simp
  · simp [hj]

@[simp] theorem addChild_root (s : FileSystem) (cur : Nat) (comp : String)
    (isf : Bool) : (s.addChild cur comp isf).root = s.root := rfl

@[simp] theorem addChild_current (s : FileSystem) (cur : Nat) (comp : String)
    (isf : Bool) : (s.addChild cur comp isf).current = s.current := rfl

@[simp] theorem addChild_nextId (s : FileSystem) (cur : Nat) (comp : String)
    (isf : Bool) : (s.addChild cur comp isf).nextId = s.nextId + 1 := rfl

theorem wf_bound {s : FileSystem} (hwf : wf s) {i : Nat} {d : TrieNode}
    (h : s.getNode i = some d) : i < s.nextId :=
  hwf.1 i d h

theorem getNode_nextId_none {s : FileSystem} (hwf : wf s) :
    s.getNode s.nextId = none := by
  cases h : s.getNode s.nextId with
  | none => rfl
  | some d => exact absurd (wf_bound hwf h) (lt_irrefl _)

theorem getNode_addChild_new {s : FileSystem} {cur : Nat} {comp : String}
    {isf : Bool} (hfresh : s.getNode s.nextId = none) :
    (s.addChild cur comp isf).getNode s.nextId =
      some ⟨comp, isf, "", some cur, []⟩ := by
  show alookup (amod _ s.nodes cur ++ [(s.nextId, _)]) s.nextId = _
  have h1 : alookup (amod (fun d =>
      { d with children := aset d.children comp s.nextId }) s.nodes cur)
      s.nextId = none := by
    rw [alookup_amod]
    by_cases hc : s.nextId = cur
    · rw [if_pos hc, ← hc,
        show alookup s.nodes s.nextId = none from hfresh]
      rfl
    · rw [if_neg hc]
      exact hfresh
  rw [alookup_append_none h1]
  simp [alookup]

theorem getNode_addChild_cur {s : FileSystem} {cur : Nat} {d : TrieNode}
    (comp : String) (isf : Bool) (hd : s.getNode cur = some d) :
    (s.addChild cur comp isf).getNode cur =
      some { d with children := aset d.children comp s.nextId } := by
  show alookup (amod _ s.nodes cur ++ [(s.nextId, _)]) cur = _
  have h1 : alookup (amod (fun d =>
      { d with children := aset d.children comp s.nextId }) s.nodes cur)
      cur = some { d with children := aset d.children comp s.nextId } := by
    rw [alookup_amod, if_pos rfl, show alookup s.nodes cur = some d from hd]
    rfl
  exact alookup_append_some h1

theorem getNode_addChild_other {s : FileSystem} {cur j : Nat} {comp : String}
    {isf : Bool} (hj1 : j ≠ cur) (hj2 : j ≠ s.nextId) :
    (s.addChild cur comp isf).getNode j = s.getNode j := by
  show alookup (amod _ s.nodes cur ++ [(s.nextId, _)]) j = _
  cases h : s.getNode j with
  | some d =>
    have h1 : alookup (amod (fun d =>
        { d with children := aset d.children comp s.nextId }) s.nodes cur)
        j = some d := by
      rw [alookup_amod, if_neg hj1]
      exact h
    exact alookup_append_some h1
  | none =>
    have h1 : alookup (amod (fun d =>
        { d with children := aset d.children comp s.nextId }) s.nodes cur)
        j = none := by
      rw [alookup_amod, if_neg hj1]
      exact h
    rw [alookup_append_none h1]
    have hj3 : ¬s.nextId = j := fun h => hj2 h.symm
    simp [alookup, hj3]

theorem getNode_addChild_isSome {s : FileSystem} {cur j : Nat} {comp : String}
    {isf : Bool} (hfresh : s.getNode s.nextId = none)
    (h : (s.getNode j).isSome = true) :
    ((s.addChild cur comp isf).getNode j).isSome = true := by
  by_cases hj : j = cur
  · subst hj
    obtain ⟨d, hd⟩ := Option.isSome_iff_exists.mp h
    rw [getNode_addChild_cur comp isf hd]
    rfl
  · by_cases hj2 : j = s.nextId
    · subst hj2
      rw [hfresh] at h
      simp at h
    · rw [getNode_addChild_other hj hj2]
      exact h

/-! ## Well-formedness preservation -/

theorem wf_updNode_of {s : FileSystem} {i : Nat} {f : TrieNode → TrieNode}
    (hwf : wf s) (hpar : ∀ d, (f d).parent = d.parent)
    (hch : ∀ d e, e ∈ (f d).children → e ∈ d.children) :
    wf (s.updNode i f) := by
  obtain ⟨hb, hr, hc, hcl⟩ := hwf
  refine ⟨?_, ?_, ?_, ?_⟩
  · intro j dj hj
    rw [getNode_updNode] at hj
    rw [updNode_nextId]
    by_cases hji : j = i
    · rw [if_pos hji] at hj
      obtain ⟨d0, hd0, _⟩ := Option.map_eq_some'.mp hj
      exact hji ▸ hb i d0 hd0
    · rw [if_neg hji] at hj
      exact hb j dj hj
  · rw [updNode_root, isSome_getNode_updNode]
    exact hr
  · rw [updNode_current, isSome_getNode_updNode]
    exact hc
  · intro j dj hj
    rw [getNode_updNode] at hj
    by_cases hji : j = i
    · rw [if_pos hji] at hj
      obtain ⟨d0, hd0, hfd⟩ := Option.map_eq_some'.mp hj
      subst hji
      constructor
      · intro p hp
        rw [isSome_getNode_updNode]
        exact (hcl j d0 hd0).1 p (by rw [← hpar d0, hfd, hp])
      · intro e he
        rw [isSome_getNode_updNode]
        exact (hcl j d0 hd0).2 e (hch d0 e (hfd ▸ he))
    · rw [if_neg hji] at hj
      constructor
      · intro p hp
        rw [isSome_getNode_updNode]
        exact (hcl j dj hj).1 p hp
      · intro e he
        rw [isSome_getNode_updNode]
        exact (hcl j dj hj).2 e he

theorem wf_addChild {s : FileSystem} {cur : Nat} {d : TrieNode} (comp : String)
    (isf : Bool) (hwf : wf s) (hd : s.getNode cur = some d) :
    wf (s.addChild cur comp isf) := by
  have hfresh : s.getNode s.nextId = none := getNode_nextId_none hwf
  have hcurne : cur ≠ s.nextId := by
    intro h
    rw [h, hfresh] at hd
    cases hd
  obtain ⟨hb, hr, hc, hcl⟩ := hwf
  refine ⟨?_, ?_, ?_, ?_⟩
  · intro j dj hj
    rw [addChild_nextId]
    by_cases hjn : j = s.nextId
    · rw [hjn]
      exact Nat.lt_succ_self _
    · by_cases hjc : j = cur
      · subst hjc
        exact Nat.lt_succ_of_lt (hb _ _ hd)
      · rw [getNode_addChild_other hjc hjn] at hj
        exact Nat.lt_succ_of_lt (hb _ _ hj)
  · rw [addChild_root]
    exact getNode_addChild_isSome hfresh hr
  · rw [addChild_current]
    exact getNode_addChild_isSome hfresh hc
  · intro j dj hj
    by_cases hjn : j = s.nextId
    · subst hjn
      rw [getNode_addChild_new hfresh] at hj
      cases hj
      constructor
      · intro p hp
        cases hp
        obtain ⟨_, hdc⟩ := Option.isSome_iff_exists.mp
          (Option.isSome_iff_exists.mpr ⟨d, hd⟩)
        exact getNode_addChild_isSome hfresh (by rw [hd]; rfl)
      · intro e he
        cases he
    · by_cases hjc : j = cur
      · subst hjc
        rw [getNode_addChild_cur comp isf hd] at hj
        cases hj
        constructor
        · intro p hp
          exact getNode_addChild_isSome hfresh ((hcl _ _ hd).1 p hp)
        · intro e he
          rcases mem_aset he with he2 | he2
          · exact getNode_addChild_isSome hfresh ((hcl _ _ hd).2 e he2)
          · rw [he2]
            rw [getNode_addChild_new hfresh]
            rfl
      · rw [getNode_addChild_other hjc hjn] at hj
        constructor
        · intro p hp
          exact getNode_addChild_isSome hfresh ((hcl _ _ hj).1 p hp)
        · intro e he
          exact getNode_addChild_isSome hfresh ((hcl _ _ hj).2 e he)

/-! ## Heap extension lemmas -/

theorem nodeExt_refl (d : TrieNode) : nodeExt d d :=
  ⟨rfl, rfl, fun _ _ h => h⟩

theorem heapExt_refl (s : FileSystem) : heapExt s s :=
  ⟨rfl, rfl, le_refl _, fun _ d h => ⟨d, h, nodeExt_refl d⟩⟩

theorem heapExt_trans {s t u : FileSystem} (h1 : heapExt s t)
    (h2 : heapExt t u) : heapExt s u := by
  obtain ⟨hr1, hc1, hn1, hx1⟩ := h1
  obtain ⟨hr2, hc2, hn2, hx2⟩ := h2
  refine ⟨hr2.trans hr1, hc2.trans hc1, hn1.trans hn2, ?_⟩
  intro i d hd
  obtain ⟨d2, hd2, he2⟩ := hx1 i d hd
  obtain ⟨d3, hd3, he3⟩ := hx2 i d2 hd2
  exact ⟨d3, hd3, he3.1.trans he2.1, he3.2.1.trans he2.2.1,
    fun c j h => he3.2.2 c j (he2.2.2 c j h)⟩

theorem heapExt_isSome {s t : FileSystem} (h : heapExt s t) {i : Nat}
    (hi : (s.getNode i).isSome = true) : (t.getNode i).isSome = true := by
  obtain ⟨d, hd⟩ := Option.isSome_iff_exists.mp hi
  obtain ⟨d2, hd2, _⟩ := h.2.2.2 i d hd
  rw [hd2]
  rfl

theorem heapExt_parentOf {s t : FileSystem} (h : heapExt s t) {i : Nat}
    {d : TrieNode} (hd : s.getNode i = some d) :
    t.parentOf i = s.parentOf i := by
  obtain ⟨d2, hd2, he⟩ := h.2.2.2 i d hd
  show (t.getNode i).bind _ = (s.getNode i).bind _
  rw [hd, hd2]
  show d2.parent = d.parent
  exact he.2.1

theorem heapExt_isFileOf {s t : FileSystem} (h : heapExt s t) {i : Nat}
    {d : TrieNode} (hd : s.getNode i = some d) :
    t.isFileOf i = s.isFileOf i := by
  obtain ⟨d2, hd2, he⟩ := h.2.2.2 i d hd
  show (Option.map _ (t.getNode i)).getD false = (Option.map _ (s.getNode i)).getD false
  rw [hd, hd2]
  show d2.is_file = d.is_file
  exact he.1

theorem heapExt_childOf {s t : FileSystem} (h : heapExt s t) {i j : Nat}
    {c : String} (hc : s.childOf i c = some j) : t.childOf i c = some j := by
  unfold FileSystem.childOf at hc ⊢
  cases hd : s.getNode i with
  | none => rw [hd] at hc; cases hc
  | some d =>
    rw [hd] at hc
    obtain ⟨d2, hd2, he⟩ := h.2.2.2 i d hd
    rw [hd2]
    exact he.2.2 c j hc

theorem addChild_heapExt {s : FileSystem} {cur : Nat} {d : TrieNode}
    {comp : String} (isf : Bool) (hwf : wf s) (hd : s.getNode cur = some d)
    (hnone : alookup d.children comp = none) :
    heapExt s (s.addChild cur comp isf) := by
  have hfresh : s.getNode s.nextId = none := getNode_nextId_none hwf
  refine ⟨rfl, rfl, Nat.le_succ _, ?_⟩
  intro i di hdi
  by_cases hic : i = cur
  · subst hic
    rw [hd] at hdi
    cases hdi
    refine ⟨_, getNode_addChild_cur comp isf hd, rfl, rfl, ?_⟩
    intro c j hc
    rw [alookup_aset]
    by_cases hcc : c = comp
    · rw [hcc, hnone] at hc
      cases hc
    · rw [if_neg hcc]
      exact hc
  · have hin : i ≠ s.nextId := by
      intro h
      rw [h, hfresh] at hdi
      cases hdi
    exact ⟨di, by rw [getNode_addChild_other hic hin]; exact hdi, nodeExt_refl di⟩

theorem parentStep_isSome {s : FileSystem} {cur : Nat} (hwf : wf s)
    (hcur : (s.getNode cur).isSome = true) :
    (s.getNode ((s.parentOf cur).getD cur)).isSome = true := by
  cases hp : s.parentOf cur with
  | none => simpa [hp] using hcur
  | some p =>
    obtain ⟨d, hd⟩ := Option.isSome_iff_exists.mp hcur
    have hdp : d.parent = some p := by
      unfold FileSystem.parentOf at hp
      rw [hd] at hp
      exact hp
    simpa [hp] using (hwf.2.2.2 cur d hd).1 p hdp

theorem childOf_isSome {s : FileSystem} {cur child : Nat} {comp : String}
    (hwf : wf s) (hc : s.childOf cur comp = some child) :
    (s.getNode child).isSome = true := by
  unfold FileSystem.childOf at hc
  cases hd : s.getNode cur with
  | none => rw [hd] at hc; cases hc
  | some d =>
    rw [hd] at hc
    exact (hwf.2.2.2 cur d hd).2 (comp, child) (alookup_mem hc)

theorem traverseLoop_mem {s : FileSystem} (hwf : wf s) {last : String} :
    ∀ (l : List String) (cur n : Nat), (s.getNode cur).isSome = true →
    traverseLoop s last cur l = some n → (s.getNode n).isSome = true := by
  intro l
  induction l with
  | nil =>
    intro cur n hcur h
    rw [traverseLoop] at h
    cases h
    exact hcur
  | cons comp rest ih =>
    intro cur n hcur h
    rw [traverseLoop] at h
    by_cases h1 : comp = ".."
    · rw [if_pos h1] at h
      exact ih _ _ (parentStep_isSome hwf hcur) h
    · by_cases h2 : comp = "."
      · rw [if_neg h1, if_pos h2] at h
        exact ih _ _ hcur h
      · rw [if_neg h1, if_neg h2] at h
        cases hc : s.childOf cur comp with
        | none => rw [hc] at h; cases h
        | some child =>
          rw [hc] at h
          have h3 : (if s.isFileOf child && comp ≠ last then none
              else traverseLoop s last child rest) = some n := h
          by_cases hg : (s.isFileOf child && decide (comp ≠ last)) = true
          · rw [if_pos hg] at h3
            cases h3
          · rw [if_neg hg] at h3
            exact ih _ _ (childOf_isSome hwf hc) h3

theorem traverse_mem {s : FileSystem} (hwf : wf s) {l : List String} {n : Nat}
    (h : s.traverse l = some n) : (s.getNode n).isSome = true := by
  unfold FileSystem.traverse at h
  by_cases hh : l.head? = some ""
  · rw [if_pos hh] at h
    exact traverseLoop_mem hwf l s.root n hwf.2.1 h
  · rw [if_neg hh] at h
    exact traverseLoop_mem hwf l s.current n hwf.2.2.1 h

theorem createLoop_wf_ext :
    ∀ (l : List String) (s : FileSystem) (cur : Nat), wf s →
    (s.getNode cur).isSome = true →
    wf (createLoop s cur l) ∧ heapExt s (createLoop s cur l) := by
  intro l
  induction l with
  | nil =>
    intro s cur hwf _
    exact ⟨hwf, heapExt_refl s⟩
  | cons comp rest ih =>
    intro s cur hwf hcur
    rw [createLoop]
    by_cases h1 : comp = ".."
    · rw [if_pos h1]
      exact ih s _ hwf (parentStep_isSome hwf hcur)
    · by_cases h2 : comp = "."
      · rw [if_neg h1, if_pos h2]
        exact ih s cur hwf hcur
      · rw [if_neg h1, if_neg h2]
        cases hc : s.childOf cur comp with
        | some child => exact ih s child hwf (childOf_isSome hwf hc)
        | none =>
          obtain ⟨d, hd⟩ := Option.isSome_iff_exists.mp hcur
          have hnone : alookup d.children comp = none := by
            unfold FileSystem.childOf at hc
            rw [hd] at hc
            exact hc
          have hwf1 : wf (s.addChild cur comp false) :=
            wf_addChild comp false hwf hd
          have hext1 : heapExt s (s.addChild cur comp false) :=
            addChild_heapExt false hwf hd hnone
          have hnew : ((s.addChild cur comp false).getNode s.nextId).isSome = true := by
            rw [getNode_addChild_new (getNode_nextId_none hwf)]
            rfl
          obtain ⟨hwf2, hext2⟩ := ih (s.addChild cur comp false) s.nextId hwf1 hnew
          exact ⟨hwf2, heapExt_trans hext1 hext2⟩

theorem createLoop_idem :
    ∀ (l : List String) (s : FileSystem) (cur : Nat), wf s →
    (s.getNode cur).isSome = true →
    createLoop (createLoop s cur l) cur l = createLoop s cur l := by
  intro l
  induction l with
  | nil =>
    intro s cur _ _
    rfl
  | cons comp rest ih =>
    intro s cur hwf hcur
    obtain ⟨d, hd⟩ := Option.isSome_iff_exists.mp hcur
    by_cases h1 : comp = ".."
    · have ht : createLoop s cur (comp :: rest) =
          createLoop s ((s.parentOf cur).getD cur) rest := by
        rw [createLoop, if_pos h1]
      rw [ht]
      have hext : heapExt s (createLoop s ((s.parentOf cur).getD cur) rest) :=
        (createLoop_wf_ext rest s _ hwf (parentStep_isSome hwf hcur)).2
      rw [createLoop, if_pos h1, heapExt_parentOf hext hd]
      exact ih s _ hwf (parentStep_isSome hwf hcur)
    · by_cases h2 : comp = "."
      · have ht : createLoop s cur (comp :: rest) = createLoop s cur rest := by
          rw [createLoop, if_neg h1, if_pos h2]
        rw [ht, createLoop, if_neg h1, if_pos h2]
        exact ih s cur hwf hcur
      · cases hc : s.childOf cur comp with
        | some child =>
          have hchild : (s.getNode child).isSome = true := childOf_isSome hwf hc
          have ht : createLoop s cur (comp :: rest) = createLoop s child rest := by
            rw [createLoop, if_neg h1, if_neg h2, hc]
          rw [ht]
          have hext : heapExt s (createLoop s child rest) :=
            (createLoop_wf_ext rest s child hwf hchild).2
          rw [createLoop, if_neg h1, if_neg h2, heapExt_childOf hext hc]
          exact ih s child hwf hchild
        | none =>
          have hnone : alookup d.children comp = none := by
            unfold FileSystem.childOf at hc
            rw [hd] at hc
            exact hc
          have hwf1 : wf (s.addChild cur comp false) :=
            wf_addChild comp false hwf hd
          have hnew : ((s.addChild cur comp false).getNode s.nextId).isSome = true := by
            rw [getNode_addChild_new (getNode_nextId_none hwf)]
            rfl
          have ht : createLoop s cur (comp :: rest) =
              createLoop (s.addChild cur comp false) s.nextId rest := by
            rw [createLoop, if_neg h1, if_neg h2, hc]
          rw [ht]
          have hchild1 : (s.addChild cur comp false).childOf cur comp =
              some s.nextId := by
            unfold FileSystem.childOf
            rw [getNode_addChild_cur comp false hd]
            show alookup (aset d.children comp s.nextId) comp = some s.nextId
            rw [alookup_aset, if_pos rfl]
          have hext2 : heapExt (s.addChild cur comp false)
              (createLoop (s.addChild cur comp false) s.nextId rest) :=
            (createLoop_wf_ext rest _ s.nextId hwf1 hnew).2
          rw [createLoop, if_neg h1, if_neg h2, heapExt_childOf hext2 hchild1]
          exact ih (s.addChild cur comp false) s.nextId hwf1 hnew

/-! ## Shape of each operation's resulting state -/

theorem ls_fst (s : FileSystem) (p : String) : (s.ls p).1 = s := by
  simp only [FileSystem.ls]
  split
  · rfl
  · split <;> rfl

theorem cat_fst (s : FileSystem) (p : String) : (s.cat p).1 = s := by
  simp only [FileSystem.cat]
  split
  · split <;> rfl
  · rfl

theorem pwd_fst (s : FileSystem) : s.pwd.1 = s := rfl

theorem touch_fst_cases (s : FileSystem) (p : String) :
    (s.touch p).1 = s ∨
    ∃ dn : Nat, s.traverse (parse_path p).dropLast = some dn ∧
      (s.touch p).1 = s.addChild dn ((parse_path p).getLastD "") true := by
  simp only [FileSystem.touch]
  split
  next h0 => exact Or.inl rfl
  next h0 =>
    split
    next dn h1 =>
      split
      next h2 => exact Or.inl rfl
      next h2 =>
        split
        next h3 => exact Or.inr ⟨dn, h1, rfl⟩
        next v h3 => exact Or.inl rfl
    next h1 => exact Or.inl rfl

theorem cd_fst_cases (s : FileSystem) (p : String) :
    (s.cd p).1 = s ∨ (s.cd p).1 = { s with current := s.root } ∨
    ∃ n : Nat, s.traverse (parse_path p) = some n ∧ s.isFileOf n = false ∧
      (s.cd p).1 = { s with current := n } := by
  simp only [FileSystem.cd]
  split
  next h0 => exact Or.inr (Or.inl rfl)
  next h0 =>
    split
    next n h1 =>
      split
      next h2 => exact Or.inl rfl
      next h2 => exact Or.inr (Or.inr ⟨n, h1, by simpa using h2, rfl⟩)
    next h1 => exact Or.inl rfl

theorem rm_fst_cases (s : FileSystem) (p : String) :
    (s.rm p).1 = s ∨
    ∃ n : Nat, s.traverse (parse_path p).dropLast = some n ∧
      (s.rm p).1 = s.updNode n (fun d =>
        { d with children := aremove d.children ((parse_path p).getLastD "") }) := by
  simp only [FileSystem.rm]
  split
  next h0 => exact Or.inl rfl
  next h0 =>
    split
    next n h1 =>
      split
      next v h2 => exact Or.inr ⟨n, h1, rfl⟩
      next h2 => exact Or.inl rfl
    next h1 => exact Or.inl rfl

theorem write_fst_cases (s : FileSystem) (t p : String) :
    (s.write t p).1 = s ∨
    ∃ n : Nat, s.traverse (parse_path p) = some n ∧
      (s.write t p).1 = s.updNode n (fun d => { d with content := t }) := by
  simp only [FileSystem.write]
  split
  next n h1 =>
    split
    next h2 => exact Or.inr ⟨n, h1, rfl⟩
    next h2 => exact Or.inl rfl
  next h1 => exact Or.inl rfl

theorem mkdir_fst_cases (s : FileSystem) (p : String) :
    (s.mkdir p).1 = s ∨ (s.mkdir p).1 = s.create_directory (parse_path p) := by
  simp only [FileSystem.mkdir]
  split
  next n h1 => exact Or.inl rfl
  next h1 => exact Or.inr rfl

/-! ## Invariant preservation -/

theorem isFileOf_updNode {s : FileSystem} {i : Nat} (f : TrieNode → TrieNode)
    (j : Nat) (hf : ∀ d, (f d).is_file = d.is_file) :
    (s.updNode i f).isFileOf j = s.isFileOf j := by
  unfold FileSystem.isFileOf
  rw [getNode_updNode]
  by_cases hj : j = i
  · subst hj
    cases h : s.getNode j with
    | none => simp
    | some d => simp [hf d]
  · rw [if_neg hj]

theorem isFileOf_addChild {s : FileSystem} {cur : Nat} {comp : String}
    {isf : Bool} (j : Nat) (hwf : wf s) (hj : (s.getNode j).isSome = true) :
    (s.addChild cur comp isf).isFileOf j = s.isFileOf j := by
  have hfresh : s.getNode s.nextId = none := getNode_nextId_none hwf
  by_cases hjc : j = cur
  · subst hjc
    obtain ⟨d, hd⟩ := Option.isSome_iff_exists.mp hj
    unfold FileSystem.isFileOf
    rw [getNode_addChild_cur comp isf hd, hd]
    rfl
  · by_cases hjn : j = s.nextId
    · subst hjn
      rw [hfresh] at hj
      cases hj
    · unfold FileSystem.isFileOf
      rw [getNode_addChild_other hjc hjn]

theorem inv_setCurrent {s : FileSystem} {n : Nat} (hinv : inv s)
    (hn : (s.getNode n).isSome = true) (hnf : s.isFileOf n = false) :
    inv { s with current := n } := by
  obtain ⟨⟨hb, hr, hc, hcl⟩, hokc, hokr⟩ := hinv
  exact ⟨⟨hb, hr, hn, hcl⟩, hnf, hokr⟩

theorem inv_create_directory {s : FileSystem} (hinv : inv s) (l : List String) :
    inv (s.create_directory l) := by
  obtain ⟨hwf, hokc, hokr⟩ := hinv
  have hstart : ((s.getNode (if l.head? = some "" then s.root else s.current))).isSome = true := by
    by_cases hh : l.head? = some ""
    · rw [if_pos hh]
      exact hwf.2.1
    · rw [if_neg hh]
      exact hwf.2.2.1
  obtain ⟨hwf2, hext⟩ := createLoop_wf_ext l s _ hwf hstart
  have heq : s.create_directory l = createLoop s
      (if l.head? = some "" then s.root else s.current) l := rfl
  rw [heq]
  refine ⟨hwf2, ?_, ?_⟩
  · obtain ⟨dc, hdc⟩ := Option.isSome_iff_exists.mp hwf.2.2.1
    rw [hext.2.1, heapExt_isFileOf hext hdc]
    exact hokc
  · obtain ⟨dr, hdr⟩ := Option.isSome_iff_exists.mp hwf.2.1
    rw [hext.1, heapExt_isFileOf hext hdr]
    exact hokr

theorem inv_addChild {s : FileSystem} {dn : Nat} (hinv : inv s)
    (comp : String) (isf : Bool) (hdn : (s.getNode dn).isSome = true) :
    inv (s.addChild dn comp isf) := by
  obtain ⟨hwf, hokc, hokr⟩ := hinv
  obtain ⟨d, hd⟩ := Option.isSome_iff_exists.mp hdn
  refine ⟨wf_addChild comp isf hwf hd, ?_, ?_⟩
  · rw [addChild_current, isFileOf_addChild s.current hwf hwf.2.2.1]
    exact hokc
  · rw [addChild_root, isFileOf_addChild s.root hwf hwf.2.1]
    exact hokr

theorem inv_updNode {s : FileSystem} {i : Nat} {f : TrieNode → TrieNode}
    (hinv : inv s) (hisf : ∀ d, (f d).is_file = d.is_file)
    (hpar : ∀ d, (f d).parent = d.parent)
    (hch : ∀ d e, e ∈ (f d).children → e ∈ d.children) :
    inv (s.updNode i f) := by
  obtain ⟨hwf, hokc, hokr⟩ := hinv
  refine ⟨wf_updNode_of hwf hpar hch, ?_, ?_⟩
  · rw [updNode_current, isFileOf_updNode f s.current hisf]
    exact hokc
  · rw [updNode_root, isFileOf_updNode f s.root hisf]
    exact hokr

theorem inv_step {s : FileSystem} (hinv : inv s) (o : Op) : inv (step s o) := by
  cases o with
  | mkdir p =>
    rcases mkdir_fst_cases s p with h | h
    · show inv (s.mkdir p).1
      rw [h]
      exact hinv
    · show inv (s.mkdir p).1
      rw [h]
      exact inv_create_directory hinv _
  | touch p =>
    rcases touch_fst_cases s p with h | ⟨dn, h1, h⟩
    · show inv (s.touch p).1
      rw [h]
      exact hinv
    · show inv (s.touch p).1
      rw [h]
      exact inv_addChild hinv _ _ (traverse_mem hinv.1 h1)
  | ls p =>
    show inv (s.ls p).1
    rw [ls_fst]
    exact hinv
  | cd p =>
    rcases cd_fst_cases s p with h | h | ⟨n, h1, h2, h⟩
    · show inv (s.cd p).1
      rw [h]
      exact hinv
    · show inv (s.cd p).1
      rw [h]
      exact inv_setCurrent hinv hinv.1.2.1 hinv.2.2
    · show inv (s.cd p).1
      rw [h]
      exact inv_setCurrent hinv (traverse_mem hinv.1 h1) h2
  | pwd => exact hinv
  | cat p =>
    show inv (s.cat p).1
    rw [cat_fst]
    exact hinv
  | write p t =>
    rcases write_fst_cases s t p with h | ⟨n, h1, h⟩
    · show inv (s.write t p).1
      rw [h]
      exact hinv
    · show inv (s.write t p).1
      rw [h]
      exact inv_updNode hinv (fun d => rfl) (fun d => rfl) (fun d e he => he)
  | rm p =>
    rcases rm_fst_cases s p with h | ⟨n, h1, h⟩
    · show inv (s.rm p).1
      rw [h]
      exact hinv
    · show inv (s.rm p).1
      rw [h]
      exact inv_updNode hinv (fun d => rfl) (fun d => rfl)
        (fun d e he => mem_aremove he)

theorem inv_init : inv FileSystem.init := by
  refine ⟨⟨?_, rfl, rfl, ?_⟩, rfl, rfl⟩
  · intro i d h
    by_cases h0 : (0 : Nat) = i
    · subst h0
      exact Nat.zero_lt_one
    · simp [FileSystem.init, FileSystem.getNode, alookup, h0] at h
  · intro i d h
    by_cases h0 : (0 : Nat) = i
    · subst h0
      have hd : d = ⟨"", false, "", none, []⟩ := by
        simpa [FileSystem.init, FileSystem.getNode, alookup] using h.symm
      subst hd
      constructor
      · intro p hp
        cases hp
      · intro e he
        cases he
    · simp [FileSystem.init, FileSystem.getNode, alookup, h0] at h

theorem inv_foldl : ∀ (ops : List Op) (s : FileSystem), inv s →
    inv (List.foldl step s ops) := by
  intro ops
  induction ops with
  | nil => intro s hinv; exact hinv
  | cons o rest ih =>
    intro s hinv
    exact ih (step s o) (inv_step hinv o)

theorem inv_runOps (ops : List Op) : inv (runOps ops) :=
  inv_foldl ops FileSystem.init inv_init

/-! ## mkdir idempotence -/

theorem mkdir_eq_of_traverse_some {s : FileSystem} {p : String} {n : Nat}
    (h : s.traverse (parse_path p) = some n) : s.mkdir p = (s, []) := by
  simp only [FileSystem.mkdir]
  rw [h]

theorem mkdir_eq_of_traverse_none {s : FileSystem} {p : String}
    (h : s.traverse (parse_path p) = none) :
    s.mkdir p = (s.create_directory (parse_path p), []) := by
  simp only [FileSystem.mkdir]
  rw [h]

theorem create_directory_idem {s : FileSystem} (hwf : wf s) (l : List String) :
    (s.create_directory l).create_directory l = s.create_directory l := by
  show createLoop (createLoop s (if l.head? = some "" then s.root else s.current) l)
      (if l.head? = some ""
       then (createLoop s (if l.head? = some "" then s.root else s.current) l).root
       else (createLoop s (if l.head? = some "" then s.root else s.current) l).current) l
    = createLoop s (if l.head? = some "" then s.root else s.current) l
  by_cases hh : l.head? = some ""
  · simp only [hh, if_pos]
    have hext := (createLoop_wf_ext l s s.root hwf hwf.2.1).2
    rw [hext.1]
    exact createLoop_idem l s s.root hwf hwf.2.1
  · simp only [hh, if_neg, if_false, ite_false]
    have hext := (createLoop_wf_ext l s s.current hwf hwf.2.2.1).2
    rw [hext.2.1]
    exact createLoop_idem l s s.current hwf hwf.2.2.1

theorem mkdir_idem_of_wf {s : FileSystem} (hwf : wf s) (p : String) :
    ((s.mkdir p).1).mkdir p = ((s.mkdir p).1, []) := by
  cases h : s.traverse (parse_path p) with
  | some n =>
    rw [mkdir_eq_of_traverse_some h]
    exact mkdir_eq_of_traverse_some h
  | none =>
    rw [mkdir_eq_of_traverse_none h]
    show (s.create_directory (parse_path p)).mkdir p = _
    cases h2 : (s.create_directory (parse_path p)).traverse (parse_path p) with
    | some n => exact mkdir_eq_of_traverse_some h2
    | none =>
      rw [mkdir_eq_of_traverse_none h2, create_directory_idem hwf]

/-! ## Exact-outcome lemmas for single operations -/

theorem touch_eq_create {s : FileSystem} {p : String} {dn : Nat}
    (h0 : ¬parse_path p = [])
    (h1 : s.traverse (parse_path p).dropLast = some dn)
    (h2 : s.isFileOf dn = false)
    (h3 : s.childOf dn ((parse_path p).getLastD "") = none) :
    (s.touch p).1 = s.addChild dn ((parse_path p).getLastD "") true := by
  simp only [FileSystem.touch]
  rw [if_neg h0]
  split
  next dn2 hx =>
    rw [h1] at hx
    obtain rfl : dn = dn2 := Option.some.inj hx
    split
    next hy => rw [h2] at hy; exact Bool.noConfusion hy
    next hy =>
      split
      next hz => rfl
      next v hz => rw [h3] at hz; exact Option.noConfusion hz
  next hx => rw [h1] at hx; exact Option.noConfusion hx

theorem touch_eq_exists {s : FileSystem} {p : String} {dn j : Nat}
    (h0 : ¬parse_path p = [])
    (h1 : s.traverse (parse_path p).dropLast = some dn)
    (h2 : s.isFileOf dn = false)
    (h3 : s.childOf dn ((parse_path p).getLastD "") = some j) :
    (s.touch p).1 = s := by
  simp only [FileSystem.touch]
  rw [if_neg h0]
  split
  next dn2 hx =>
    rw [h1] at hx
    obtain rfl : dn = dn2 := Option.some.inj hx
    split
    next hy => rfl
    next hy =>
      split
      next hz =>
        rw [hz] at h3
        all_goals exact Option.noConfusion h3
      next v hz => rfl
  next hx =>
    rw [hx] at h1
    all_goals exact Option.noConfusion h1

theorem write_eq_set {s : FileSystem} {t p : String} {n : Nat}
    (h1 : s.traverse (parse_path p) = some n) (h2 : s.isFileOf n = true) :
    (s.write t p).1 = s.updNode n (fun d => { d with content := t }) := by
  simp only [FileSystem.write]
  split
  next n2 hx =>
    rw [h1] at hx
    obtain rfl : n = n2 := Option.some.inj hx
    split
    next hy => rfl
    next hy => exact absurd h2 hy
  next hx => rw [h1] at hx; exact Option.noConfusion hx

theorem cat_snd {s : FileSystem} {p : String} {n : Nat}
    (h1 : s.traverse (parse_path p) = some n) (h2 : s.isFileOf n = true) :
    (s.cat p).2 = [s.contentOf n] := by
  simp only [FileSystem.cat]
  split
  next n2 hx =>
    rw [h1] at hx
    obtain rfl : n = n2 := Option.some.inj hx
    split
    next hy => rfl
    next hy => exact absurd h2 hy
  next hx => rw [h1] at hx; exact Option.noConfusion hx

theorem contentOf_eq {s : FileSystem} {i : Nat} {d : TrieNode}
    (h : s.getNode i = some d) : s.contentOf i = d.content := by
  unfold FileSystem.contentOf
  rw [h]
  rfl

theorem isFileOf_some {s : FileSystem} {i : Nat} (h : s.isFileOf i = true) :
    ∃ d : TrieNode, s.getNode i = some d ∧ d.is_file = true := by
  unfold FileSystem.isFileOf at h
  cases hd : s.getNode i with
  | none => rw [hd] at h; exact Bool.noConfusion h
  | some d =>
    rw [hd] at h
    exact ⟨d, rfl, h⟩

/-! ## The string order used by the listing -/

theorem charsLe_total : ∀ x y : List Char, charsLe x y = true ∨ charsLe y x = true := by
  intro x
  induction x with
  | nil => intro y; exact Or.inl rfl
  | cons a as ih =>
    intro y
    cases y with
    | nil => exact Or.inr rfl
    | cons b bs =>
      rcases Nat.lt_trichotomy a.toNat b.toNat with h | h | h
      · exact Or.inl (by simp [charsLe, h])
      · rcases ih bs with h2 | h2
        · exact Or.inl (by simp [charsLe, h, lt_irrefl, h2])
        · exact Or.inr (by simp [charsLe, h, lt_irrefl, h2])
      · exact Or.inr (by simp [charsLe, h])

theorem charsLe_trans : ∀ x y z : List Char, charsLe x y = true →
    charsLe y z = true → charsLe x z = true := by
  intro x
  induction x with
  | nil => intro y z _ _; exact rfl
  | cons a as ih =>
    intro y z h1 h2
    cases y with
    | nil => exact Bool.noConfusion h1
    | cons b bs =>
      cases z with
      | nil => exact Bool.noConfusion h2
      | cons c cs =>
        simp only [charsLe] at h1 h2 ⊢
        split_ifs at h1 h2 ⊢ with g1 g2 g3 g4 g5 g6 <;>
          first
          | rfl
          | omega
          | exact Bool.noConfusion h1
          | exact Bool.noConfusion h2
          | exact ih bs cs h1 h2

instance : IsTrans String strLe :=
  ⟨fun a b c h1 h2 => charsLe_trans a.toList b.toList c.toList h1 h2⟩

instance : IsTotal String strLe :=
  ⟨fun a b => charsLe_total a.toList b.toList⟩

/-! ## The write-read round trip -/

theorem traverse_ftxt {s : FileSystem} {j : Nat}
    (hcj : s.childOf s.current "f.txt" = some j) (hjf : s.isFileOf j = true) :
    s.traverse ["f.txt"] = some j := by
  show traverseLoop s "f.txt" s.current ["f.txt"] = some j
  rw [traverseLoop]
  rw [if_neg (by decide : ¬("f.txt" = "..")), if_neg (by decide : ¬("f.txt" = "."))]
  rw [hcj]
  show (if s.isFileOf j && "f.txt" ≠ "f.txt" then none
        else traverseLoop s "f.txt" j []) = some j
  rw [hjf]
  simp [traverseLoop]

theorem touch_write_cat {s : FileSystem} (hinv : inv s)
    (h : ((s.childOf s.current "f.txt").all (fun j => s.isFileOf j)) = true) :
    ((((s.touch "f.txt").1).write "hello" "f.txt").1.cat "f.txt").2 = ["hello"] := by
  obtain ⟨hwf, hokc, hokr⟩ := hinv
  have hpp : parse_path "f.txt" = ["f.txt"] := by decide
  obtain ⟨dcur, hdcur⟩ := Option.isSome_iff_exists.mp hwf.2.2.1
  have hppne : ¬parse_path "f.txt" = [] := by
    rw [hpp]
    decide
  have htravdir : s.traverse (parse_path "f.txt").dropLast = some s.current := by
    rw [hpp]
    rfl
  have hlast : (parse_path "f.txt").getLastD "" = "f.txt" := by
    rw [hpp]
    decide
  cases hc : s.childOf s.current "f.txt" with
  | none =>
    have ht1 : (s.touch "f.txt").1 = s.addChild s.current "f.txt" true := by
      have h4 := touch_eq_create hppne htravdir hokc
        (by rw [hlast]; exact hc)
      rw [h4, hlast]
    have hfresh : s.getNode s.nextId = none := getNode_nextId_none hwf
    have hgcur : (s.addChild s.current "f.txt" true).getNode s.current =
        some { dcur with children := aset dcur.children "f.txt" s.nextId } :=
      getNode_addChild_cur _ _ hdcur
    have hchild : (s.addChild s.current "f.txt" true).childOf
        (s.addChild s.current "f.txt" true).current "f.txt" = some s.nextId := by
      show ((s.addChild s.current "f.txt" true).getNode s.current).bind
        (fun d => alookup d.children "f.txt") = some s.nextId
      rw [hgcur]
      show alookup (aset dcur.children "f.txt" s.nextId) "f.txt" = some s.nextId
      rw [alookup_aset, if_pos rfl]
    have hnewf : (s.addChild s.current "f.txt" true).isFileOf s.nextId = true := by
      unfold FileSystem.isFileOf
      rw [getNode_addChild_new hfresh]
      rfl
    have htrav2 : (s.addChild s.current "f.txt" true).traverse
        (parse_path "f.txt") = some s.nextId := by
      rw [hpp]
      exact traverse_ftxt hchild hnewf
    have hw : ((s.addChild s.current "f.txt" true).write "hello" "f.txt").1 =
        (s.addChild s.current "f.txt" true).updNode s.nextId
          (fun d => { d with content := "hello" }) :=
      write_eq_set htrav2 hnewf
    have hcurne : s.current ≠ s.nextId := Nat.ne_of_lt (wf_bound hwf hdcur)
    have hgcur2 : ((s.addChild s.current "f.txt" true).updNode s.nextId
        (fun d => { d with content := "hello" })).getNode s.current =
        some { dcur with children := aset dcur.children "f.txt" s.nextId } := by
      rw [getNode_updNode, if_neg hcurne]
      exact hgcur
    have hchild2 : ((s.addChild s.current "f.txt" true).updNode s.nextId
        (fun d => { d with content := "hello" })).childOf
        ((s.addChild s.current "f.txt" true).updNode s.nextId
          (fun d => { d with content := "hello" })).current "f.txt" =
        some s.nextId := by
      show (((s.addChild s.current "f.txt" true).updNode s.nextId
          (fun d => { d with content := "hello" })).getNode s.current).bind
        (fun d => alookup d.children "f.txt") = some s.nextId
      rw [hgcur2]
      show alookup (aset dcur.children "f.txt" s.nextId) "f.txt" = some s.nextId
      rw [alookup_aset, if_pos rfl]
    have hnewf2 : ((s.addChild s.current "f.txt" true).updNode s.nextId
        (fun d => { d with content := "hello" })).isFileOf s.nextId = true := by
      rw [isFileOf_updNode (fun d => { d with content := "hello" }) s.nextId (fun d => rfl)]
      exact hnewf
    have htrav3 : ((s.addChild s.current "f.txt" true).updNode s.nextId
        (fun d => { d with content := "hello" })).traverse
        (parse_path "f.txt") = some s.nextId := by
      rw [hpp]
      exact traverse_ftxt hchild2 hnewf2
    have hcat := cat_snd htrav3 hnewf2
    have hcont : ((s.addChild s.current "f.txt" true).updNode s.nextId
        (fun d => { d with content := "hello" })).contentOf s.nextId = "hello" := by
      have h5 : ((s.addChild s.current "f.txt" true).updNode s.nextId
          (fun d => { d with content := "hello" })).getNode s.nextId =
          some ⟨"f.txt", true, "hello", some s.current, []⟩ := by
        rw [getNode_updNode, if_pos rfl, getNode_addChild_new hfresh]
        rfl
      rw [contentOf_eq h5]
    rw [ht1, hw, hcat, hcont]
  | some j =>
    have hjf : s.isFileOf j = true := by
      rw [hc] at h
      simpa using h
    have ht1 : (s.touch "f.txt").1 = s :=
      touch_eq_exists hppne htravdir hokc (by rw [hlast]; exact hc)
    have htrav2 : s.traverse (parse_path "f.txt") = some j := by
      rw [hpp]
      exact traverse_ftxt hc hjf
    have hw : (s.write "hello" "f.txt").1 =
        s.updNode j (fun d => { d with content := "hello" }) :=
      write_eq_set htrav2 hjf
    have hjne : s.current ≠ j := by
      intro hEq
      rw [← hEq] at hjf
      rw [hokc] at hjf
      exact Bool.noConfusion hjf
    have hchild2 : (s.updNode j (fun d => { d with content := "hello" })).childOf
        (s.updNode j (fun d => { d with content := "hello" })).current "f.txt" =
        some j := by
      show ((s.updNode j (fun d => { d with content := "hello" })).getNode
        s.current).bind (fun d => alookup d.children "f.txt") = some j
      rw [getNode_updNode, if_neg hjne]
      exact hc
    have hjf2 : (s.updNode j (fun d => { d with content := "hello" })).isFileOf
        j = true := by
      rw [isFileOf_updNode (fun d => { d with content := "hello" }) j (fun d => rfl)]
      exact hjf
    have htrav3 : (s.updNode j (fun d => { d with content := "hello" })).traverse
        (parse_path "f.txt") = some j := by
      rw [hpp]
      exact traverse_ftxt hchild2 hjf2
    have hcat := cat_snd htrav3 hjf2
    have hcont : (s.updNode j (fun d => { d with content := "hello" })).contentOf
        j = "hello" := by
      obtain ⟨dj, hdj, _⟩ := isFileOf_some hjf
      have h5 : (s.updNode j (fun d => { d with content := "hello" })).getNode j =
          some { dj with content := "hello" } := by
        rw [getNode_updNode, if_pos rfl, hdj]
        rfl
      rw [contentOf_eq h5]
    rw [ht1, hw, hcat, hcont]

/-! ## Claim theorems -/

/-- Claim C1 (code bug): absolute paths are NOT anchored at the root.
_parse_path filters out every empty component, so the root-anchor test
`components[0] == ''` in both _traverse and _create_directory can never fire
(the start node computed in _parse_path is a dead local variable).  After
mkdir a; cd a, resolving the absolute path /a fails, while resolving a with
the cursor at the root finds the directory; and mkdir /b creates b under the
cursor, not under the root. -/
theorem absolute_anchor_bug :
    traverse (runOps [.mkdir "a", .cd "a"]) (parse_path "/a") = none ∧
    traverse (runOps [.mkdir "a"]) (parse_path "a") = some 1 ∧
    childOf (step (runOps [.mkdir "a", .cd "a"]) (.mkdir "/b")) 1 "b" = some 2 ∧
    childrenOf (step (runOps [.mkdir "a", .cd "a"]) (.mkdir "/b")) 0 = [("a", 1)] := by
  decide

/-- Claim C2 (code bug): the file-leaf invariant is violated.  After
mkdir a; touch a/f; mkdir a/f/b, the create walk of mkdir descends into the
existing file node f (it has no through-a-file guard) and stores a directory
b inside the children dict of the file. -/
theorem file_leaf_invariant_violated :
    isFileOf (runOps [.mkdir "a", .touch "a/f", .mkdir "a/f/b"]) 2 = true ∧
    childrenOf (runOps [.mkdir "a", .touch "a/f", .mkdir "a/f/b"]) 2 = [("b", 3)] := by
  decide

/-- Claim C3 (code bug): mkdir a/f/b after touch a/f (with directory a
present) does not fail and does not leave the tree unchanged: it reports
nothing and mutates the tree, adding node 3 as a child of the file f. -/
theorem mkdir_through_file_mutates :
    applyOp (runOps [.mkdir "a", .touch "a/f"]) (.mkdir "a/f/b") ≠
      (runOps [.mkdir "a", .touch "a/f"], []) ∧
    (applyOp (runOps [.mkdir "a", .touch "a/f"]) (.mkdir "a/f/b")).2 = [] ∧
    childOf (step (runOps [.mkdir "a", .touch "a/f"]) (.mkdir "a/f/b")) 2 "b" = some 3 := by
  decide

/-- Claim C4 (counterexample): the mid-path file guard is not positional.
With a file f under the cursor, traversing f/../f descends into the file f at
the first (non-final) position and still returns it, because the guard
compares the component string with the last component string. -/
theorem midfile_guard_positional_cex :
    traverse (runOps [.touch "f"]) ["f", "..", "f"] = some 1 ∧
    isFileOf (runOps [.touch "f"]) 1 = true := by
  decide

/-- Claim C4 (amended): traverse fails whenever it descends into a file
through a component whose string differs from the string of the last
component of the list.  (The guard compares component values, not positions,
so a non-final component equal to the last one may pass through a file.) -/
theorem midfile_guard_value (s : FileSystem) (last : String) (cur : Nat)
    (l : List String) (h : midFileHit s last cur l = true) :
    traverseLoop s last cur l = none := by
  induction l generalizing cur with
  | nil => simp [midFileHit] at h
  | cons comp rest ih =>
    by_cases h1 : comp = ".."
    · rw [traverseLoop, if_pos h1]
      rw [midFileHit, if_pos h1] at h
      exact ih _ h
    · by_cases h2 : comp = "."
      · rw [traverseLoop, if_neg h1, if_pos h2]
        rw [midFileHit, if_neg h1, if_pos h2] at h
        exact ih _ h
      · rw [traverseLoop, if_neg h1, if_neg h2]
        rw [midFileHit, if_neg h1, if_neg h2] at h
        cases hc : s.childOf cur comp with
        | none => rfl
        | some child =>
          rw [hc] at h
          show (if s.isFileOf child && comp ≠ last then none
                else traverseLoop s last child rest) = none
          have h0 : (s.isFileOf child && decide (comp ≠ last) ||
              midFileHit s last child rest) = true := h
          by_cases hg : (s.isFileOf child && decide (comp ≠ last)) = true
          · rw [if_pos hg]
          · rw [if_neg hg]
            simp only [Bool.not_eq_true] at hg
            rw [hg, Bool.false_or] at h0
            exact ih _ h0

/-- Witness for the amended C4 theorem at a concrete input: a file f under
the root and the components f/x, where f is hit mid-path. -/
theorem midfile_guard_value_witness :
    midFileHit (runOps [.touch "f"]) "x" 0 ["f", "x"] = true ∧
    traverseLoop (runOps [.touch "f"]) "x" 0 ["f", "x"] = none :=
  ⟨by decide, midfile_guard_value (runOps [.touch "f"]) "x" 0 ["f", "x"] (by decide)⟩

/-- Claim C6 (counterexample): after mkdir a; cd a; rm ../a the cursor still
references node 1 (the removed directory a, still present in the heap) while
the root has no children left, so the cursor is not reachable from the root. -/
theorem cursor_reachability_cex :
    (runOps [.mkdir "a", .cd "a", .rm "../a"]).current = 1 ∧
    childrenOf (runOps [.mkdir "a", .cd "a", .rm "../a"]) 0 = [] ∧
    getNode (runOps [.mkdir "a", .cd "a", .rm "../a"]) 1 =
      some ⟨"a", false, "", some 0, []⟩ := by
  decide

/-- Claim C7 (counterexample): ls sorts the decorated entries, not the raw
names.  With directory a and file a! under the root, sorting by name would
print the directory first (a/ then a!), but ls prints a! before a/ because
the slash suffix sorts after the exclamation mark. -/
theorem ls_sort_by_name_cex :
    (applyOp (runOps [.mkdir "a", .touch "a!"]) (.ls "")).2 = ["a!\na/"] ∧
    "a!\na/" ≠ "a/\na!" := by
  decide

/-- Claim C8: the create walk is never invoked with an empty component list,
because traverse on an empty list always succeeds with the cursor itself, so
mkdir takes its no-op branch; the unguarded first-component access in
_create_directory is unreachable, and mkdir returns without any fault. -/
theorem create_walk_nonempty (s : FileSystem) (p : String)
    (h : parse_path p = []) :
    s.traverse (parse_path p) = some s.current ∧ s.mkdir p = (s, []) := by
  constructor
  · rw [h]; rfl
  · unfold FileSystem.mkdir
    rw [h]
    rfl

/-- Witness for C8 at the concrete empty path. -/
theorem create_walk_nonempty_witness :
    parse_path "" = [] ∧
    FileSystem.init.traverse (parse_path "") = some FileSystem.init.current ∧
    FileSystem.init.mkdir "" = (FileSystem.init, []) :=
  ⟨by decide,
   (create_walk_nonempty FileSystem.init "" (by decide)).1,
   (create_walk_nonempty FileSystem.init "" (by decide)).2⟩

/-- Claim C9 (counterexample): with the cursor at the root (a directory) but
a directory named f.txt already present, touch f.txt reports that the name
exists, write resolves to the directory and refuses, and cat reports that the
file was not found instead of returning hello. -/
theorem write_read_roundtrip_cex :
    isFileOf (runOps [.mkdir "f.txt"]) (runOps [.mkdir "f.txt"]).current = false ∧
    (applyOp (runOps [.mkdir "f.txt", .touch "f.txt", .write "f.txt" "hello"])
      (.cat "f.txt")).2 = ["File not found: f.txt"] := by
  decide

/-- Claim C10: touch accepts a literal final component .. and stores a file
node under the key .. in the children dict (node 2 under directory a), the
creation being reported as a success; yet traversal interprets .. and . as
navigation, never as child-dict keys, so resolving a/.. yields the root and
the stored node cannot be reached by a path. -/
theorem touch_dotdot_literal_child :
    (childOf (runOps [.mkdir "a", .touch "a/.."]) 1 ".." = some 2 ∧
     isFileOf (runOps [.mkdir "a", .touch "a/.."]) 2 = true ∧
     (applyOp (runOps [.mkdir "a"]) (.touch "a/..")).2 = ["File '..' created"] ∧
     traverse (runOps [.mkdir "a", .touch "a/.."]) (parse_path "a/..") = some 0) ∧
    (∀ (s : FileSystem) (last : String) (cur : Nat) (rest : List String),
      traverseLoop s last cur (".." :: rest) =
        traverseLoop s last ((s.parentOf cur).getD cur) rest ∧
      traverseLoop s last cur ("." :: rest) = traverseLoop s last cur rest) := by
  refine ⟨by decide, fun s last cur rest => ⟨rfl, rfl⟩⟩

/-- Claim C5: mkdir is idempotent on every reachable state.  Calling mkdir
with the same path twice yields exactly the state of one call, and the second
call prints nothing (mkdir never reports an error). -/
theorem mkdir_idempotent (ops : List Op) (p : String) :
    applyOp (step (runOps ops) (Op.mkdir p)) (Op.mkdir p) =
      (step (runOps ops) (Op.mkdir p), []) := by
  have hwf : wf (runOps ops) := (inv_runOps ops).1
  show (((runOps ops).mkdir p).1).mkdir p = (((runOps ops).mkdir p).1, [])
  exact mkdir_idem_of_wf hwf p

/-- Claim C6 (amended): after every sequence of the eight operations the
cursor references a non-file node; reachability from the root can be lost,
since rm can detach the cursor or one of its ancestors (see the
counterexample), and the cursor then still references the detached node. -/
theorem cursor_never_file (ops : List Op) :
    (runOps ops).isFileOf (runOps ops).current = false :=
  (inv_runOps ops).2.1

/-- Claim C7 (amended): on a directory, ls prints one line holding the
decorated children entries (name, plus a trailing slash for directories)
sorted lexicographically as decorated strings, and the distinct empty
indicator when the join is empty.  (Sorting happens after decoration, so the
order can differ from sorting by raw name: see the counterexample.) -/
theorem ls_sorted_decorated (s : FileSystem) (p : String) (n : Nat)
    (h1 : (if parse_path p = [] then some s.current
           else s.traverse (parse_path p)) = some n)
    (h2 : s.isFileOf n = false) :
    List.Sorted strLe ((lsEntries s n).insertionSort strLe) ∧
    ((lsEntries s n).insertionSort strLe).Perm (lsEntries s n) ∧
    (s.ls p).2 =
      [if String.intercalate "\n" ((lsEntries s n).insertionSort strLe) = ""
       then "Empty directory"
       else String.intercalate "\n" ((lsEntries s n).insertionSort strLe)] := by
  refine ⟨List.sorted_insertionSort strLe _, List.perm_insertionSort strLe _, ?_⟩
  simp only [FileSystem.ls]
  split
  next hx =>
    rw [hx] at h1
    all_goals exact Option.noConfusion h1
  next m hx =>
    rw [hx] at h1
    obtain rfl : m = n := Option.some.inj h1
    split
    next hy => rw [h2] at hy; exact Bool.noConfusion hy
    next hy => rfl

/-- Witness for the amended C7 theorem: a root directory holding directory z,
directory a and file m; the listing target resolves to the root and the
conclusion is produced by the theorem itself. -/
theorem ls_sorted_decorated_witness :
    ((if parse_path "" = [] then some (runOps [.mkdir "z", .mkdir "a", .touch "m"]).current
      else (runOps [.mkdir "z", .mkdir "a", .touch "m"]).traverse (parse_path "")) =
        some 0 ∧
     (runOps [.mkdir "z", .mkdir "a", .touch "m"]).isFileOf 0 = false) ∧
    (List.Sorted strLe ((lsEntries (runOps [.mkdir "z", .mkdir "a", .touch "m"]) 0).insertionSort strLe) ∧
     ((lsEntries (runOps [.mkdir "z", .mkdir "a", .touch "m"]) 0).insertionSort strLe).Perm
       (lsEntries (runOps [.mkdir "z", .mkdir "a", .touch "m"]) 0) ∧
     ((runOps [.mkdir "z", .mkdir "a", .touch "m"]).ls "").2 =
       [if String.intercalate "\n"
            ((lsEntries (runOps [.mkdir "z", .mkdir "a", .touch "m"]) 0).insertionSort strLe) = ""
        then "Empty directory"
        else String.intercalate "\n"
            ((lsEntries (runOps [.mkdir "z", .mkdir "a", .touch "m"]) 0).insertionSort strLe)]) :=
  ⟨⟨by decide, by decide⟩,
   ls_sorted_decorated (runOps [.mkdir "z", .mkdir "a", .touch "m"]) "" 0
     (by decide) (by decide)⟩

/-- Claim C9 (amended): from any reachable state (the cursor there is always a
directory), the sequence touch f.txt, write f.txt hello, cat f.txt prints
hello, provided any existing child named f.txt at the cursor is a file; a
directory child of that name makes all three steps fail (see the
counterexample). -/
theorem write_read_roundtrip (ops : List Op)
    (h : ((runOps ops).childOf (runOps ops).current "f.txt").all
        (fun j => (runOps ops).isFileOf j) = true) :
    (applyOp (step (step (runOps ops) (.touch "f.txt")) (.write "f.txt" "hello"))
      (.cat "f.txt")).2 = ["hello"] :=
  touch_write_cat (inv_runOps ops) h

/-- Witness for the amended C9 theorem: the empty operation sequence, where
the cursor is the empty root directory. -/
theorem write_read_roundtrip_witness :
    ((runOps []).childOf (runOps []).current "f.txt").all
        (fun j => (runOps []).isFileOf j) = true ∧
    (applyOp (step (step (runOps []) (.touch "f.txt")) (.write "f.txt" "hello"))
      (.cat "f.txt")).2 = ["hello"] :=
  ⟨by decide, write_read_roundtrip [] (by decide)⟩

end FsSim
